import Mathlib

/-!
Shallow embedding of the order-packing service core
(`internal/domain` pack calculator and the pack-sizes HTTP boundary),
together with proofs of the specification's testable properties.

Go `int` values are modelled as `Int` (the spec treats overflow as a
documented assumption, not guarded behaviour).  The Go `map[int]int`
pack-breakdown is modelled as an association list with distinct keys;
`map[k]++` becomes `mapIncr`.  The dynamic-programming table
`map[int]*solution` is modelled as a function `Int → Option Solution`
updated pointwise, and the two `for` loops become structural recursion
over the number of iterations.
-/

namespace OrderPacking

/-- `solution` from the source: a candidate pack combination for one exact
total, carrying the total item count, the per-size breakdown and the
derived total package count. -/
structure Solution where
  totalItems : Int
  packsBySize : List (Int × Int)
  totalPackCount : Int
deriving Repr, DecidableEq

/-- `PackResult` from the source: order, achieved total, breakdown, and the
pack-size snapshot used. -/
structure PackResult where
  order : Int
  totalItems : Int
  packs : List (Int × Int)
  packSizes : List Int
deriving Repr, DecidableEq

/-- `PackCalculator`: the registry state is its (always sorted) list of
pack sizes.  The mutex only serialises access and has no sequential
semantics, so it is not part of the state. -/
structure PackCalculator where
  packSizes : List Int
deriving Repr, DecidableEq

/-- Go's `sort.Ints`: sort ascending.  (`sort.Ints` is an in-place
introsort; on integers its observable behaviour is exactly "an
ascending-sorted permutation of the input", which is what this models.) -/
def sortInts (l : List Int) : List Int :=
  l.insertionSort (fun a b => a ≤ b)

/-- `NewPackCalculator`: copy the given sizes and sort them ascending. -/
def NewPackCalculator (sizes : List Int) : PackCalculator :=
  { packSizes := sortInts sizes }

/-- `UpdatePackSizes`: replace the registry content by a sorted copy of the
argument. -/
def PackCalculator.UpdatePackSizes (_pc : PackCalculator) (sizes : List Int) :
    PackCalculator :=
  { packSizes := sortInts sizes }

/-- `GetPackSizes`: return a copy of the registry content (copying is the
identity in a functional model). -/
def PackCalculator.GetPackSizes (pc : PackCalculator) : List Int :=
  pc.packSizes

/-- Go's `newPacks[packSize]++` on a `map[int]int`: increment the count at
the key, inserting count 1 when absent. -/
def mapIncr (m : List (Int × Int)) (k : Int) : List (Int × Int) :=
  match m with
  | [] => [(k, 1)]
  | p :: rest => if p.1 = k then (p.1, p.2 + 1) :: rest else p :: mapIncr rest k

/-- Sum of `size × count` over a breakdown (the shipped-item total the
breakdown accounts for). -/
def packsItemSum (m : List (Int × Int)) : Int :=
  (m.map (fun p => p.1 * p.2)).sum

/-- Sum of counts over a breakdown (total package count, as computed by
`PackResult.GetTotalPackCount`). -/
def packsCountSum (m : List (Int × Int)) : Int :=
  (m.map (fun p => p.2)).sum

/-- `createSolutionWithPack`: copy the base solution's map, add one pack of
`packSize`, bump the totals. -/
def createSolutionWithPack (base : Solution) (packSize : Int) : Solution :=
  { totalItems := base.totalItems + packSize
    packsBySize := mapIncr base.packsBySize packSize
    totalPackCount := base.totalPackCount + 1 }

/-- `isBetterSolution`: a nil current solution always loses; otherwise fewer
items wins, then fewer packs. -/
def isBetterSolution (newSol : Solution) (current : Option Solution) : Bool :=
  match current with
  | none => true
  | some c =>
    if newSol.totalItems < c.totalItems then true
    else if newSol.totalItems = c.totalItems ∧
        newSol.totalPackCount < c.totalPackCount then true
    else false

/-- The DP table `optimalSolutions : map[int]*solution`; absent keys are
`none` (Go's nil pointer). -/
def DPTable : Type := Int → Option Solution

/-- The table as initialised in `Calculate`: only total `0` is present,
with the empty solution. -/
def initialTable : DPTable :=
  fun k => if k = 0 then some { totalItems := 0, packsBySize := [], totalPackCount := 0 } else none

/-- The body of the inner loop of `buildOptimalSolutions` for one
`packSize` at one `currentQuantity`. -/
def processPack (q : Int) (table : DPTable) (packSize : Int) : DPTable :=
  if packSize ≤ q then
    match table (q - packSize) with
    | none => table
    | some prev =>
      let newSol := createSolutionWithPack prev packSize
      if isBetterSolution newSol (table q) then
        Function.update table q (some newSol)
      else table
  else table

/-- The inner loop of `buildOptimalSolutions`: fold over the pack sizes in
slice order. -/
def processQuantity (sizes : List Int) (table : DPTable) (q : Int) : DPTable :=
  sizes.foldl (processPack q) table

/-- The outer loop of `buildOptimalSolutions` run for quantities
`1, 2, …, n`. -/
def buildUpTo (sizes : List Int) (table : DPTable) : Nat → DPTable
  | 0 => table
  | n + 1 => processQuantity sizes (buildUpTo sizes table n) ((n : Int) + 1)

/-- `buildOptimalSolutions`: run the outer loop for
`currentQuantity = 1 … limit` (no iterations when `limit ≤ 0`). -/
def buildOptimalSolutions (table : DPTable) (limit : Int) (sizes : List Int) : DPTable :=
  buildUpTo sizes table limit.toNat

/-- The loop of `findBestSolutionForOrder`, recursing on the number of
remaining iterations: return the result built from the first present table
entry at or after `q`, or the zero fallback result when the fuel runs out. -/
def findFrom (table : DPTable) (order : Int) (sizes : List Int) : Int → Nat → PackResult
  | _, 0 => { order := order, totalItems := 0, packs := [], packSizes := sizes }
  | q, fuel + 1 =>
    match table q with
    | some sol =>
      { order := order, totalItems := sol.totalItems, packs := sol.packsBySize
        packSizes := sizes }
    | none => findFrom table order sizes (q + 1) fuel

/-- `findBestSolutionForOrder`: scan quantities from `order` to
`searchLimit` inclusive. -/
def findBestSolutionForOrder (table : DPTable) (order searchLimit : Int)
    (sizes : List Int) : PackResult :=
  findFrom table order sizes order (searchLimit - order + 1).toNat

/-- `Calculate`: snapshot the registry, handle the two degenerate cases,
otherwise run the DP up to `order + largestPack` and scan for the best
total. -/
def PackCalculator.Calculate (pc : PackCalculator) (order : Int) : PackResult :=
  let packSizes := pc.GetPackSizes
  if order ≤ 0 then
    { order := order, totalItems := 0, packs := [], packSizes := packSizes }
  else if packSizes.length = 0 then
    { order := order, totalItems := 0, packs := [], packSizes := packSizes }
  else
    let largestPack := packSizes.getLast?.getD 0
    let searchLimit := order + largestPack
    let table := buildOptimalSolutions initialTable searchLimit packSizes
    findBestSolutionForOrder table order searchLimit packSizes

/-- `PackResult.GetTotalPackCount`. -/
def PackResult.GetTotalPackCount (pr : PackResult) : Int :=
  packsCountSum pr.packs

/-- `PackResult.GetSurplus`. -/
def PackResult.GetSurplus (pr : PackResult) : Int :=
  pr.totalItems - pr.order

/-- State-passing form of `Calculate`: the Go method reads the registry
once (through `GetPackSizes`) and performs no writes, so the outgoing
registry state is the incoming one. -/
def PackCalculator.CalculateS (pc : PackCalculator) (order : Int) :
    PackResult × PackCalculator :=
  (pc.Calculate order, pc)

/-- `PackSizesHandler.handlePost` after JSON decoding: reject an empty
list, reject any non-positive element (registry untouched), otherwise
update the registry; `true` means the 200 success response. -/
def handlePost (pc : PackCalculator) (req : List Int) : PackCalculator × Bool :=
  if req.length = 0 then (pc, false)
  else if req.any (fun size => decide (size ≤ 0)) then (pc, false)
  else (pc.UpdatePackSizes req, true)

/-- Non-negative integer combinations of the pack sizes, together with the
number of packs used: `ReachableWith sizes t n` holds when `t` is the sum
of `n` pack sizes drawn (with repetition) from `sizes`. -/
inductive ReachableWith (sizes : List Int) : Int → Int → Prop
  | zero : ReachableWith sizes 0 0
  | step {t n s : Int} : s ∈ sizes → ReachableWith sizes t n →
      ReachableWith sizes (t + s) (n + 1)

/-- `t` is expressible as a non-negative integer combination of the pack
sizes. -/
def Reachable (sizes : List Int) (t : Int) : Prop :=
  ∃ n, ReachableWith sizes t n

/-! ### Association-list (`map[int]int`) lemmas -/

@[simp]
theorem packsItemSum_nil : packsItemSum [] = 0 := rfl

@[simp]
theorem packsCountSum_nil : packsCountSum [] = 0 := rfl

@[simp]
theorem packsItemSum_cons (p : Int × Int) (m : List (Int × Int)) :
    packsItemSum (p :: m) = p.1 * p.2 + packsItemSum m := by
  simp [packsItemSum]

@[simp]
theorem packsCountSum_cons (p : Int × Int) (m : List (Int × Int)) :
    packsCountSum (p :: m) = p.2 + packsCountSum m := by
  simp [packsCountSum]

theorem packsItemSum_mapIncr (m : List (Int × Int)) (k : Int) :
    packsItemSum (mapIncr m k) = packsItemSum m + k := by
  induction m with
  | nil => simp [mapIncr]
  | cons p rest ih =>
    by_cases h : p.1 = k
    · subst h
      simp [mapIncr]
      ring
    · simp [mapIncr, h, ih]
      ring

theorem packsCountSum_mapIncr (m : List (Int × Int)) (k : Int) :
    packsCountSum (mapIncr m k) = packsCountSum m + 1 := by
  induction m with
  | nil => simp [mapIncr]
  | cons p rest ih =>
    by_cases h : p.1 = k
    · subst h
      simp [mapIncr]
      ring
    · simp [mapIncr, h, ih]
      ring

theorem mem_keys_mapIncr {m : List (Int × Int)} {k x : Int}
    (hx : x ∈ (mapIncr m k).map Prod.fst) : x ∈ m.map Prod.fst ∨ x = k := by
  induction m with
  | nil => simpa [mapIncr] using hx
  | cons p rest ih =>
    by_cases h : p.1 = k
    · simp only [mapIncr, if_pos h, List.map_cons, List.mem_cons] at hx ⊢
      tauto
    · simp only [mapIncr, if_neg h, List.map_cons, List.mem_cons] at hx ⊢
      rcases hx with hx | hx
      · tauto
      · rcases ih hx with h' | h' <;> tauto

theorem keys_nodup_mapIncr {m : List (Int × Int)} {k : Int}
    (h : (m.map Prod.fst).Nodup) : ((mapIncr m k).map Prod.fst).Nodup := by
  induction m with
  | nil => simp [mapIncr]
  | cons p rest ih =>
    simp only [List.map_cons, List.nodup_cons] at h
    by_cases hpk : p.1 = k
    · simpa [mapIncr, hpk, List.nodup_cons] using h
    · simp only [mapIncr, if_neg hpk, List.map_cons, List.nodup_cons]
      refine ⟨fun hmem => ?_, ih h.2⟩
      rcases mem_keys_mapIncr hmem with h' | h'
      · exact h.1 h'
      · exact hpk h'

theorem mem_mapIncr_entry {m : List (Int × Int)} {k : Int} {p : Int × Int}
    (hp : p ∈ mapIncr m k) :
    (∃ q ∈ m, p.1 = q.1 ∧ q.2 ≤ p.2) ∨ (p.1 = k ∧ p.2 = 1) := by
  induction m with
  | nil =>
    simp only [mapIncr, List.mem_singleton] at hp
    subst hp
    exact Or.inr ⟨rfl, rfl⟩
  | cons q rest ih =>
    by_cases h : q.1 = k
    · simp only [mapIncr, if_pos h, List.mem_cons] at hp
      rcases hp with rfl | hp
      · exact Or.inl ⟨q, List.mem_cons_self _ _, rfl, by omega⟩
      · exact Or.inl ⟨p, List.mem_cons_of_mem _ hp, rfl, le_refl _⟩
    · simp only [mapIncr, if_neg h, List.mem_cons] at hp
      rcases hp with rfl | hp
      · exact Or.inl ⟨p, List.mem_cons_self _ _, rfl, le_refl _⟩
      · rcases ih hp with ⟨q', hq', h1, h2⟩ | h'
        · exact Or.inl ⟨q', List.mem_cons_of_mem _ hq', h1, h2⟩
        · exact Or.inr h'

/-- Entry well-formedness is preserved by `mapIncr` at a key drawn from the
size list: every entry keeps a key in `sizes` and a positive count. -/
theorem mapIncr_entries_wf {sizes : List Int} {m : List (Int × Int)} {k : Int}
    (hk : k ∈ sizes) (h : ∀ p ∈ m, p.1 ∈ sizes ∧ 0 < p.2) :
    ∀ p ∈ mapIncr m k, p.1 ∈ sizes ∧ 0 < p.2 := by
  intro p hp
  rcases mem_mapIncr_entry hp with ⟨q, hq, h1, h2⟩ | ⟨h1, h2⟩
  · rcases h q hq with ⟨hq1, hq2⟩
    exact ⟨h1 ▸ hq1, by omega⟩
  · exact ⟨h1 ▸ hk, by omega⟩

/-! ### `ReachableWith` basics -/

theorem ReachableWith.count_nonneg {sizes : List Int} {t n : Int}
    (h : ReachableWith sizes t n) : 0 ≤ n := by
  induction h with
  | zero => omega
  | step _ _ ih => omega

theorem ReachableWith.total_nonneg {sizes : List Int} {t n : Int}
    (hpos : ∀ s ∈ sizes, 0 < s) (h : ReachableWith sizes t n) : 0 ≤ t := by
  induction h with
  | zero => omega
  | step hs _ ih => have := hpos _ hs; omega

theorem ReachableWith.add_copies {sizes : List Int} {t n s : Int}
    (hs : s ∈ sizes) (h : ReachableWith sizes t n) :
    ∀ c : Nat, ReachableWith sizes (t + s * c) (n + c)
  | 0 => by simpa using h
  | c + 1 => by
    have hc := ReachableWith.add_copies hs h c
    have := ReachableWith.step hs hc
    have heq : t + s * (c : Int) + s = t + s * ((c : Nat) + 1 : Nat) := by
      push_cast
      ring
    have heqn : n + (c : Int) + 1 = n + ((c : Nat) + 1 : Nat) := by
      push_cast
      ring
    rw [heq, heqn] at this
    exact this

/-- A well-formed breakdown witnesses that its item total is reachable with
its package count. -/
theorem reachableWith_of_packs {sizes : List Int} {m : List (Int × Int)}
    (h : ∀ p ∈ m, p.1 ∈ sizes ∧ 0 < p.2) :
    ReachableWith sizes (packsItemSum m) (packsCountSum m) := by
  induction m with
  | nil => exact ReachableWith.zero
  | cons p rest ih =>
    have hp := h p (List.mem_cons_self _ _)
    have hrest := ih fun q hq => h q (List.mem_cons_of_mem _ hq)
    have hcopies := ReachableWith.add_copies hp.1 hrest p.2.toNat
    have h2 : ((p.2.toNat : Int)) = p.2 := Int.toNat_of_nonneg (le_of_lt hp.2)
    rw [h2] at hcopies
    simpa [packsItemSum_cons, packsCountSum_cons, add_comm, mul_comm] using hcopies

/-! ### The DP-table well-formedness invariant -/

/-- A table entry at key `k` is well formed: its recorded total is `k`, its
breakdown has distinct keys drawn from `sizes` with positive counts, and
the two derived totals agree with the breakdown. -/
def WFsol (sizes : List Int) (k : Int) (sol : Solution) : Prop :=
  sol.totalItems = k ∧
  (sol.packsBySize.map Prod.fst).Nodup ∧
  (∀ p ∈ sol.packsBySize, p.1 ∈ sizes ∧ 0 < p.2) ∧
  packsItemSum sol.packsBySize = k ∧
  packsCountSum sol.packsBySize = sol.totalPackCount

/-- Every present entry of the table is well formed. -/
def WFtable (sizes : List Int) (table : DPTable) : Prop :=
  ∀ k sol, table k = some sol → WFsol sizes k sol

theorem WFtable_initial (sizes : List Int) : WFtable sizes initialTable := by
  intro k sol hk
  simp only [initialTable] at hk
  split at hk
  · rename_i h
    cases hk
    subst h
    exact ⟨rfl, by simp, by simp, rfl, rfl⟩
  · cases hk

theorem WFsol_create {sizes : List Int} {q s : Int} {prev : Solution}
    (hs : s ∈ sizes) (hprev : WFsol sizes (q - s) prev) :
    WFsol sizes q (createSolutionWithPack prev s) := by
  obtain ⟨h1, h2, h3, h4, h5⟩ := hprev
  refine ⟨by simp [createSolutionWithPack]; omega, ?_, ?_, ?_, ?_⟩
  · exact keys_nodup_mapIncr h2
  · exact mapIncr_entries_wf hs h3
  · simp only [createSolutionWithPack, packsItemSum_mapIncr, h4]
    omega
  · simp [createSolutionWithPack, packsCountSum_mapIncr, h5]

/-- `processPack` either leaves the table unchanged or writes the candidate
built from the entry at `q - packSize`, and only at key `q`. -/
theorem processPack_cases (q : Int) (table : DPTable) (s : Int) :
    processPack q table s = table ∨
    ∃ prev, table (q - s) = some prev ∧ s ≤ q ∧
      isBetterSolution (createSolutionWithPack prev s) (table q) = true ∧
      processPack q table s =
        Function.update table q (some (createSolutionWithPack prev s)) := by
  unfold processPack
  split
  · rename_i hle
    rcases h : table (q - s) with _ | prev
    · exact Or.inl rfl
    · simp only
      split
      · rename_i hbetter
        exact Or.inr ⟨prev, rfl, hle, hbetter, rfl⟩
      · exact Or.inl rfl
  · exact Or.inl rfl

theorem processPack_apply_ne {q k : Int} (table : DPTable) (s : Int)
    (hk : k ≠ q) : processPack q table s k = table k := by
  rcases processPack_cases q table s with h | ⟨prev, _, _, _, h⟩
  · rw [h]
  · rw [h, Function.update_noteq hk]

theorem processPack_wf {sizes : List Int} {q : Int} {table : DPTable} {s : Int}
    (hs : s ∈ sizes) (hwf : WFtable sizes table) :
    WFtable sizes (processPack q table s) := by
  rcases processPack_cases q table s with h | ⟨prev, hprev, _, _, h⟩
  · rw [h]; exact hwf
  · rw [h]
    intro k sol hk
    by_cases hkq : k = q
    · subst hkq
      rw [Function.update_same] at hk
      cases hk
      exact WFsol_create hs (hwf _ _ hprev)
    · rw [Function.update_noteq hkq] at hk
      exact hwf _ _ hk

theorem foldl_processPack_apply_ne {q k : Int} (l : List Int)
    (table : DPTable) (hk : k ≠ q) :
    (l.foldl (processPack q) table) k = table k := by
  induction l generalizing table with
  | nil => rfl
  | cons a l ih =>
    simp only [List.foldl_cons]
    rw [ih, processPack_apply_ne table a hk]

theorem processQuantity_apply_ne {q k : Int} (sizes : List Int)
    (table : DPTable) (hk : k ≠ q) :
    processQuantity sizes table q k = table k :=
  foldl_processPack_apply_ne sizes table hk

theorem foldl_processPack_wf {sizes : List Int} {q : Int} {l : List Int}
    {table : DPTable} (hl : ∀ s ∈ l, s ∈ sizes) (hwf : WFtable sizes table) :
    WFtable sizes (l.foldl (processPack q) table) := by
  induction l generalizing table with
  | nil => exact hwf
  | cons a l ih =>
    simp only [List.foldl_cons]
    exact ih (fun s hs => hl s (List.mem_cons_of_mem _ hs))
      (processPack_wf (hl a (List.mem_cons_self _ _)) hwf)

theorem processQuantity_wf {sizes : List Int} {q : Int} {table : DPTable}
    (hwf : WFtable sizes table) : WFtable sizes (processQuantity sizes table q) :=
  foldl_processPack_wf (fun _ hs => hs) hwf

theorem buildUpTo_wf {sizes : List Int} {table : DPTable}
    (hwf : WFtable sizes table) : ∀ n, WFtable sizes (buildUpTo sizes table n)
  | 0 => hwf
  | n + 1 => processQuantity_wf (buildUpTo_wf hwf n)

/-- Quantities above `n` (and non-positive keys other than those already in
the base table) are untouched by the first `n` outer-loop iterations. -/
theorem buildUpTo_apply_of_gt {sizes : List Int} {table : DPTable} {k : Int} :
    ∀ n : Nat, (n : Int) < k ∨ k ≤ 0 → buildUpTo sizes table n k = table k
  | 0, _ => rfl
  | n + 1, h => by
    simp only [buildUpTo]
    rw [processQuantity_apply_ne sizes _ (by push_cast at h ⊢; omega)]
    exact buildUpTo_apply_of_gt n (by push_cast at h ⊢; omega)

/-- Once the outer loop has passed quantity `k`, the entry at `k` is final. -/
theorem buildUpTo_stable {sizes : List Int} {table : DPTable} {k : Int}
    {m : Nat} (hk : k ≤ (m : Int)) :
    ∀ {n : Nat}, m ≤ n → buildUpTo sizes table n k = buildUpTo sizes table m k := by
  intro n hn
  induction n with
  | zero =>
    have : m = 0 := by omega
    subst this
    rfl
  | succ n ih =>
    rcases Nat.lt_or_ge n m with h | h
    · have : m = n + 1 := by omega
      subst this
      rfl
    · simp only [buildUpTo]
      rw [processQuantity_apply_ne sizes _ (by omega)]
      exact ih h

/-! ### Evolution of the entry at the quantity being processed -/

theorem isBetterSolution_some_iff (newSol c : Solution) :
    isBetterSolution newSol (some c) = true ↔
      (newSol.totalItems < c.totalItems ∨
        (newSol.totalItems = c.totalItems ∧
          newSol.totalPackCount < c.totalPackCount)) := by
  simp only [isBetterSolution]
  split_ifs with h1 h2
  · simp [h1]
  · simp [h2]
  · simp [h1, h2]

/-- With a well-formed table, one `processPack` step can only keep the
entry at `q` or replace it by one with strictly fewer packages. -/
theorem processPack_entry_mono {sizes : List Int} {q : Int} {table : DPTable}
    {s : Int} {cur : Solution} (hwf : WFtable sizes table)
    (hcur : table q = some cur) :
    ∃ cur', processPack q table s q = some cur' ∧
      cur'.totalPackCount ≤ cur.totalPackCount := by
  rcases processPack_cases q table s with h | ⟨prev, hprev, hle, hbetter, h⟩
  · exact ⟨cur, by rw [h, hcur], le_refl _⟩
  · refine ⟨createSolutionWithPack prev s, by rw [h, Function.update_same], ?_⟩
    rw [hcur] at hbetter
    rcases (isBetterSolution_some_iff _ _).mp hbetter with hlt | ⟨_, hlt⟩
    · exfalso
      have hprev' := (hwf _ _ hprev).1
      have hcur' := (hwf _ _ hcur).1
      simp only [createSolutionWithPack] at hlt
      omega
    · omega

/-- With a well-formed table, if the entry at `q - s` is present then after
`processPack` the entry at `q` is present, with package count at most one
more than that previous entry. -/
theorem processPack_entry_hit {sizes : List Int} {q : Int} {table : DPTable}
    {s : Int} {prev : Solution} (hwf : WFtable sizes table)
    (hle : s ≤ q) (hprev : table (q - s) = some prev) :
    ∃ sol, processPack q table s q = some sol ∧
      sol.totalPackCount ≤ prev.totalPackCount + 1 := by
  unfold processPack
  rw [if_pos hle, hprev]
  simp only
  split
  · rename_i hbetter
    exact ⟨createSolutionWithPack prev s, Function.update_same _ _ _,
      by simp [createSolutionWithPack]⟩
  · rename_i hbetter
    rcases hq : table q with _ | cur
    · rw [hq] at hbetter
      simp [isBetterSolution] at hbetter
    · refine ⟨cur, rfl, ?_⟩
      rw [hq] at hbetter
      rw [isBetterSolution_some_iff] at hbetter
      push_neg at hbetter
      have hprev' := (hwf _ _ hprev).1
      have hcur' := (hwf _ _ hq).1
      rcases hbetter with ⟨h1, h2⟩
      simp only [createSolutionWithPack] at h1 h2 ⊢
      have : cur.totalPackCount ≤ prev.totalPackCount + 1 := by
        by_cases heq : prev.totalItems + s = cur.totalItems
        · have := h2 heq
          omega
        · omega
      exact this

theorem foldl_entry_mono {sizes : List Int} {q : Int} {l : List Int}
    {table : DPTable} {cur : Solution} (hl : ∀ s ∈ l, s ∈ sizes)
    (hwf : WFtable sizes table) (hcur : table q = some cur) :
    ∃ cur', (l.foldl (processPack q) table) q = some cur' ∧
      cur'.totalPackCount ≤ cur.totalPackCount := by
  induction l generalizing table cur with
  | nil => exact ⟨cur, hcur, le_refl _⟩
  | cons a l ih =>
    obtain ⟨cur₁, hcur₁, hle₁⟩ := processPack_entry_mono hwf hcur
    have hwf' := processPack_wf (hl a (List.mem_cons_self _ _)) hwf (q := q)
    obtain ⟨cur₂, hcur₂, hle₂⟩ :=
      ih (fun s hs => hl s (List.mem_cons_of_mem _ hs)) hwf' hcur₁
    exact ⟨cur₂, hcur₂, le_trans hle₂ hle₁⟩

theorem foldl_entry_hit {sizes : List Int} {q : Int} {l : List Int}
    {table : DPTable} {s : Int} {prev : Solution} (hl : ∀ x ∈ l, x ∈ sizes)
    (hwf : WFtable sizes table) (hs : s ∈ l) (hle : s ≤ q) (hs0 : s ≠ 0)
    (hprev : table (q - s) = some prev) :
    ∃ sol, (l.foldl (processPack q) table) q = some sol ∧
      sol.totalPackCount ≤ prev.totalPackCount + 1 := by
  induction l generalizing table with
  | nil => cases hs
  | cons a l ih =>
    have hwf' := processPack_wf (hl a (List.mem_cons_self _ _)) hwf (q := q)
    rcases List.mem_cons.mp hs with rfl | hs'
    · obtain ⟨sol₀, hsol₀, hle₀⟩ := processPack_entry_hit hwf hle hprev
      obtain ⟨sol, hsol, hle'⟩ :=
        foldl_entry_mono (fun x hx => hl x (List.mem_cons_of_mem _ hx)) hwf' hsol₀
      exact ⟨sol, hsol, le_trans hle' hle₀⟩
    · have hprev' : processPack q table a (q - s) = some prev := by
        rw [processPack_apply_ne table a (by omega)]
        exact hprev
      exact ih (fun x hx => hl x (List.mem_cons_of_mem _ hx)) hwf' hs' hprev'

theorem processQuantity_entry_hit {sizes : List Int} {q : Int}
    {table : DPTable} {s : Int} {prev : Solution} (hwf : WFtable sizes table)
    (hs : s ∈ sizes) (hle : s ≤ q) (hs0 : s ≠ 0)
    (hprev : table (q - s) = some prev) :
    ∃ sol, processQuantity sizes table q q = some sol ∧
      sol.totalPackCount ≤ prev.totalPackCount + 1 :=
  foldl_entry_hit (fun _ hx => hx) hwf hs hle hs0 hprev

/-! ### Completeness and optimality of the DP table -/

/-- Completeness with optimality: every total reachable with `m` packs has,
once the outer loop has passed it, a table entry whose package count is at
most `m`. -/
theorem dp_complete {sizes : List Int} (hpos : ∀ s ∈ sizes, 0 < s)
    {k m : Int} (h : ReachableWith sizes k m) :
    ∃ sol, buildUpTo sizes initialTable k.toNat k = some sol ∧
      sol.totalPackCount ≤ m := by
  induction h with
  | zero =>
    refine ⟨{ totalItems := 0, packsBySize := [], totalPackCount := 0 }, ?_, le_refl _⟩
    simp [buildUpTo, initialTable]
  | step hs ht ih =>
    rename_i t n s
    obtain ⟨solT, hsolT, hcount⟩ := ih
    have h1 : 0 < s := hpos s hs
    have h2 : 0 ≤ t := ht.total_nonneg hpos
    have hN : (t + s).toNat = ((t + s).toNat - 1) + 1 := by omega
    rw [hN]
    simp only [buildUpTo]
    have hcast : ((((t + s).toNat - 1 : Nat) : Int)) + 1 = t + s := by omega
    rw [hcast]
    have hwf : WFtable sizes (buildUpTo sizes initialTable ((t + s).toNat - 1)) :=
      buildUpTo_wf (WFtable_initial sizes) _
    have htable : buildUpTo sizes initialTable ((t + s).toNat - 1) (t + s - s) =
        some solT := by
      have ht' : t + s - s = t := by ring
      rw [ht', buildUpTo_stable (m := t.toNat) (by omega) (by omega)]
      exact hsolT
    obtain ⟨sol, hsol, hle⟩ := processQuantity_entry_hit hwf hs (by omega)
      (by omega) htable
    exact ⟨sol, hsol, by omega⟩

/-- Completeness lifted to any later stage of the outer loop. -/
theorem dp_complete_le {sizes : List Int} (hpos : ∀ s ∈ sizes, 0 < s)
    {k m : Int} (h : ReachableWith sizes k m) {n : Nat} (hk : k ≤ (n : Int)) :
    ∃ sol, buildUpTo sizes initialTable n k = some sol ∧
      sol.totalPackCount ≤ m := by
  have h0 : 0 ≤ k := h.total_nonneg hpos
  obtain ⟨sol, hsol, hc⟩ := dp_complete hpos h
  refine ⟨sol, ?_, hc⟩
  rw [buildUpTo_stable (m := k.toNat) (by omega) (by omega)]
  exact hsol

/-! ### The scan of `findBestSolutionForOrder` -/

/-- Complete characterisation of the scan loop: either no table entry
exists in the scanned window and the zero fallback is returned, or the
result is built from the entry at the first present quantity. -/
theorem findFrom_cases (table : DPTable) (order : Int) (sizes : List Int) :
    ∀ (fuel : Nat) (q : Int),
      ((∀ d : Nat, d < fuel → table (q + (d : Int)) = none) ∧
        findFrom table order sizes q fuel =
          { order := order, totalItems := 0, packs := [], packSizes := sizes }) ∨
      ∃ (d : Nat) (sol : Solution), d < fuel ∧ table (q + (d : Int)) = some sol ∧
        (∀ e : Nat, e < d → table (q + (e : Int)) = none) ∧
        findFrom table order sizes q fuel =
          { order := order, totalItems := sol.totalItems,
            packs := sol.packsBySize, packSizes := sizes } := by
  intro fuel
  induction fuel with
  | zero =>
    intro q
    exact Or.inl ⟨fun d hd => absurd hd (by omega), rfl⟩
  | succ fuel ih =>
    intro q
    rcases hq : table q with _ | sol
    · rcases ih (q + 1) with ⟨hnone, heq⟩ | ⟨d, sol, hd, hsol, hmin, heq⟩
      · left
        refine ⟨?_, ?_⟩
        · intro d hd
          rcases Nat.eq_zero_or_pos d with rfl | hdpos
          · simpa using hq
          · have h := hnone (d - 1) (by omega)
            have hcast : q + 1 + ((d - 1 : Nat) : Int) = q + (d : Int) := by omega
            rwa [hcast] at h
        · simpa [findFrom, hq] using heq
      · right
        refine ⟨d + 1, sol, by omega, ?_, ?_, ?_⟩
        · have hcast : q + ((d + 1 : Nat) : Int) = q + 1 + (d : Int) := by
            push_cast
            ring
          rw [hcast]
          exact hsol
        · intro e he
          rcases Nat.eq_zero_or_pos e with rfl | hepos
          · simpa using hq
          · have h := hmin (e - 1) (by omega)
            have hcast : q + 1 + ((e - 1 : Nat) : Int) = q + (e : Int) := by omega
            rwa [hcast] at h
        · simpa [findFrom, hq] using heq
    · right
      exact ⟨0, sol, by omega, by simpa using hq,
        fun e he => absurd he (by omega), by simp [findFrom, hq]⟩

/-! ### Window and multiples arithmetic -/

/-- In every window `[order, order + L)` with `0 < L ≤` window start there
is a multiple of `L` (the spec's "⌈order / maxPackSize⌉ copies of the
largest size" argument). -/
theorem exists_multiple_in_window {L : Int} (hL : 0 < L) :
    ∀ (n : Nat) (order : Int), order.toNat ≤ n → 0 < order →
      ∃ c : Nat, order ≤ L * c ∧ L * c < order + L := by
  intro n
  induction n with
  | zero => intro order h h0; omega
  | succ n ih =>
    intro order h h0
    by_cases hcase : order ≤ L
    · refine ⟨1, ?_, ?_⟩ <;> push_cast <;> omega
    · obtain ⟨c, hc1, hc2⟩ := ih (order - L) (by omega) (by omega)
      refine ⟨c + 1, ?_, ?_⟩ <;>
        push_cast <;>
        rw [mul_add, mul_one] <;>
        omega

theorem reachableWith_mul {sizes : List Int} {L : Int} (hL : L ∈ sizes)
    (c : Nat) : ReachableWith sizes (L * c) (c : Int) := by
  have h := ReachableWith.add_copies hL ReachableWith.zero c
  simpa using h

theorem sorted_le_getLast :
    ∀ {l : List Int} (h : l ≠ []), l.Sorted (fun a b => a ≤ b) →
      ∀ x ∈ l, x ≤ l.getLast h := by
  intro l
  induction l with
  | nil => intro h; cases h rfl
  | cons a t ih =>
    intro h hsorted x hx
    rcases t.eq_nil_or_concat with rfl | ⟨_, _, _⟩
    · simp only [List.mem_singleton] at hx
      subst hx
      rfl
    · rename_i ht
      have htne : t ≠ [] := by
        rcases ht with ⟨l', b, rfl⟩
        simp
      rw [List.getLast_cons htne]
      rcases List.mem_cons.mp hx with rfl | hx'
      · exact le_trans ((List.sorted_cons.mp hsorted).1 _ (List.getLast_mem htne))
          (le_refl _)
      · exact ih htne (List.sorted_cons.mp hsorted).2 x hx'

theorem packsItemSum_nonpos {m : List (Int × Int)}
    (h : ∀ p ∈ m, p.1 ≤ 0 ∧ 0 < p.2) : packsItemSum m ≤ 0 := by
  induction m with
  | nil => simp
  | cons p rest ih =>
    have hp := h p (List.mem_cons_self _ _)
    have hrest := ih fun q hq => h q (List.mem_cons_of_mem _ hq)
    have : p.1 * p.2 ≤ 0 := mul_nonpos_of_nonpos_of_nonneg hp.1 (le_of_lt hp.2)
    simp only [packsItemSum_cons]
    omega

/-- Without any positivity assumption on the other sizes: each step of the
outer loop can extend a recorded total by one pack of a positive size
`L ∈ sizes`. -/
theorem dp_records_add {sizes : List Int} {L k : Int} (hL : 0 < L)
    (hLmem : L ∈ sizes) (hk : 0 ≤ k)
    (h : ∃ prev, buildUpTo sizes initialTable k.toNat k = some prev) :
    ∃ sol, buildUpTo sizes initialTable (k + L).toNat (k + L) = some sol := by
  obtain ⟨prev, hprev⟩ := h
  have hN : (k + L).toNat = ((k + L).toNat - 1) + 1 := by omega
  rw [hN]
  simp only [buildUpTo]
  have hcast : ((((k + L).toNat - 1 : Nat) : Int)) + 1 = k + L := by omega
  rw [hcast]
  have hwf : WFtable sizes (buildUpTo sizes initialTable ((k + L).toNat - 1)) :=
    buildUpTo_wf (WFtable_initial sizes) _
  have htable : buildUpTo sizes initialTable ((k + L).toNat - 1) (k + L - L) =
      some prev := by
    have hkk : k + L - L = k := by ring
    rw [hkk, buildUpTo_stable (m := k.toNat) (by omega) (by omega)]
    exact hprev
  obtain ⟨sol, hsol, _⟩ := processQuantity_entry_hit hwf hLmem (by omega)
    (by omega) htable
  exact ⟨sol, hsol⟩

/-- Every positive multiple of a positive recorded size is recorded once
the outer loop reaches it, for an arbitrary size list. -/
theorem dp_records_multiples {sizes : List Int} {L : Int} (hL : 0 < L)
    (hLmem : L ∈ sizes) :
    ∀ c : Nat, ∃ sol,
      buildUpTo sizes initialTable (L * ((c : Int) + 1)).toNat
        (L * ((c : Int) + 1)) = some sol := by
  intro c
  induction c with
  | zero =>
    have h0 : ∃ prev, buildUpTo sizes initialTable (0 : Int).toNat 0 = some prev := by
      refine ⟨{ totalItems := 0, packsBySize := [], totalPackCount := 0 }, ?_⟩
      simp [buildUpTo, initialTable]
    have h := dp_records_add hL hLmem (le_refl 0) h0
    simpa using h
  | succ c ih =>
    have hpos : (0 : Int) ≤ L * ((c : Int) + 1) :=
      le_of_lt (mul_pos hL (by omega))
    have h := dp_records_add hL hLmem hpos ih
    have hcast : L * ((c : Int) + 1) + L = L * (((c : Nat) + 1 : Nat) + 1) := by
      push_cast
      ring
    rwa [hcast] at h

/-! ### Master characterisation of `Calculate` -/

theorem getLast_getD_mem {l : List Int} (hne : l ≠ []) :
    l.getLast?.getD 0 ∈ l := by
  rw [List.getLast?_eq_getLast _ hne]
  exact List.getLast_mem hne

/-- Unfolding of `Calculate` in the non-degenerate branch. -/
theorem calculate_eq_findFrom {pc : PackCalculator} {order : Int}
    (h0 : 0 < order) (hne : pc.packSizes ≠ []) :
    pc.Calculate order =
      findFrom
        (buildUpTo pc.packSizes initialTable
          (order + pc.packSizes.getLast?.getD 0).toNat)
        order pc.packSizes order
        ((order + pc.packSizes.getLast?.getD 0) - order + 1).toNat := by
  simp only [PackCalculator.Calculate, PackCalculator.GetPackSizes,
    findBestSolutionForOrder, buildOptimalSolutions]
  rw [if_neg (by omega), if_neg (by simpa [List.length_eq_zero] using hne)]

/-- Full characterisation of `Calculate` for a positive order and a
non-empty list of positive sizes: the result is built from a well-formed
table entry whose total is the least reachable total `≥ order`, with the
fewest packages among combinations reaching that exact total. -/
theorem calculate_found {pc : PackCalculator} {order : Int}
    (h0 : 0 < order) (hne : pc.packSizes ≠ [])
    (hpos : ∀ s ∈ pc.packSizes, 0 < s) :
    ∃ sol : Solution,
      pc.Calculate order =
        { order := order, totalItems := sol.totalItems,
          packs := sol.packsBySize, packSizes := pc.packSizes } ∧
      WFsol pc.packSizes sol.totalItems sol ∧
      order ≤ sol.totalItems ∧
      sol.totalItems ≤ order + pc.packSizes.getLast?.getD 0 ∧
      (∀ t m, order ≤ t → t < sol.totalItems →
        ¬ ReachableWith pc.packSizes t m) ∧
      (∀ m, ReachableWith pc.packSizes sol.totalItems m →
        sol.totalPackCount ≤ m) := by
  have hLmem : pc.packSizes.getLast?.getD 0 ∈ pc.packSizes := getLast_getD_mem hne
  have hL : 0 < pc.packSizes.getLast?.getD 0 := hpos _ hLmem
  set L := pc.packSizes.getLast?.getD 0 with hLdef
  set table := buildUpTo pc.packSizes initialTable (order + L).toNat with htdef
  have hwf : WFtable pc.packSizes table := buildUpTo_wf (WFtable_initial _) _
  obtain ⟨c, hc1, hc2⟩ :=
    exists_multiple_in_window hL order.toNat order (le_refl _) h0
  obtain ⟨t, ht_eq, hc1, hc2⟩ :
      ∃ t, t = L * (c : Int) ∧ order ≤ t ∧ t < order + L := ⟨_, rfl, hc1, hc2⟩
  have hreach : ReachableWith pc.packSizes t (c : Int) := by
    rw [ht_eq]
    exact reachableWith_mul hLmem c
  obtain ⟨solc, hsolc, -⟩ := dp_complete_le hpos hreach
    (n := (order + L).toNat) (by omega)
  rcases findFrom_cases table order pc.packSizes ((order + L - order + 1).toNat)
      order with ⟨hnone, heq⟩ | ⟨d, sol, hd, hsol, hmin, heq⟩
  · exfalso
    have hd' : (t - order).toNat < (order + L - order + 1).toNat := by omega
    have h := hnone _ hd'
    rw [(by omega : order + (((t - order).toNat : Nat) : Int) = t)] at h
    rw [← htdef] at hsolc
    rw [h] at hsolc
    cases hsolc
  · have hT := hwf _ _ hsol
    have hTeq : sol.totalItems = order + (d : Int) := hT.1
    refine ⟨sol, ?_, ?_, by omega, by omega, ?_, ?_⟩
    · rw [calculate_eq_findFrom h0 hne]
      exact heq
    · rw [hTeq]
      exact hT
    · intro t' m hot ht' hreach'
      have he : (t' - order).toNat < d := by omega
      have hnone' := hmin _ he
      rw [(by omega : order + (((t' - order).toNat : Nat) : Int) = t')] at hnone'
      obtain ⟨sol', hsol', -⟩ := dp_complete_le hpos hreach'
        (n := (order + L).toNat) (by omega)
      rw [← htdef] at hsol'
      rw [hnone'] at hsol'
      cases hsol'
    · intro m hreachT
      obtain ⟨sol', hsol', hcount⟩ := dp_complete_le hpos hreachT
        (n := (order + L).toNat) (by omega)
      rw [← htdef] at hsol'
      rw [hTeq] at hsol'
      rw [hsol] at hsol'
      cases hsol'
      exact hcount

/-- The zero result returned by the degenerate branches of `Calculate` and
by the scan fallback. -/
def zeroResult (pc : PackCalculator) (order : Int) : PackResult :=
  { order := order, totalItems := 0, packs := [], packSizes := pc.packSizes }

theorem calculate_zero_of_nonpos {pc : PackCalculator} {order : Int}
    (h : order ≤ 0) : pc.Calculate order = zeroResult pc order := by
  simp only [PackCalculator.Calculate, PackCalculator.GetPackSizes, zeroResult]
  rw [if_pos h]

theorem calculate_empty {pc : PackCalculator} {order : Int}
    (h : pc.packSizes = []) : pc.Calculate order = zeroResult pc order := by
  by_cases h0 : order ≤ 0
  · exact calculate_zero_of_nonpos h0
  · simp only [PackCalculator.Calculate, PackCalculator.GetPackSizes, zeroResult]
    rw [if_neg h0, if_pos (by simp [h])]

/-- Shape of every `Calculate` result, with no assumption on the registry
content: either the zero result, or a result built from a well-formed table
entry at a total `≥ order`. -/
theorem calculate_cases (pc : PackCalculator) (order : Int) :
    pc.Calculate order = zeroResult pc order ∨
    ∃ sol : Solution, 0 < order ∧
      WFsol pc.packSizes sol.totalItems sol ∧ order ≤ sol.totalItems ∧
      pc.Calculate order =
        { order := order, totalItems := sol.totalItems,
          packs := sol.packsBySize, packSizes := pc.packSizes } := by
  by_cases h0 : order ≤ 0
  · exact Or.inl (calculate_zero_of_nonpos h0)
  by_cases hne : pc.packSizes = []
  · exact Or.inl (calculate_empty hne)
  push_neg at h0
  rw [calculate_eq_findFrom h0 hne]
  set L := pc.packSizes.getLast?.getD 0 with hLdef
  set table := buildUpTo pc.packSizes initialTable (order + L).toNat with htdef
  have hwf : WFtable pc.packSizes table := buildUpTo_wf (WFtable_initial _) _
  rcases findFrom_cases table order pc.packSizes ((order + L - order + 1).toNat)
      order with ⟨hnone, heq⟩ | ⟨d, sol, hd, hsol, hmin, heq⟩
  · exact Or.inl (by rw [heq]; rfl)
  · have hT := hwf _ _ hsol
    exact Or.inr ⟨sol, h0, hT.1 ▸ hT, by have := hT.1; omega, heq⟩

theorem calculate_totalItems_nonneg (pc : PackCalculator) (order : Int) :
    0 ≤ (pc.Calculate order).totalItems := by
  rcases calculate_cases pc order with h | ⟨sol, h0, hT, hle, h⟩
  · rw [h]
    exact le_refl 0
  · rw [h]
    simp only
    omega

/-- A total is recorded by the DP once the outer loop has passed it.  By
`buildUpTo_stable` this is independent of any later limit, which lets
recordedness be compared across different orders. -/
def Recorded (sizes : List Int) (k : Int) : Prop :=
  ∃ sol, buildUpTo sizes initialTable k.toNat k = some sol

/-- Characterisation of `Calculate` for a positive order and a registry
whose last element is positive, with no assumption on the other sizes:
the result is the least recorded total in the scan window. -/
theorem calculate_found_general {pc : PackCalculator} {order : Int}
    (h0 : 0 < order) (hne : pc.packSizes ≠ [])
    (hL : 0 < pc.packSizes.getLast?.getD 0) :
    ∃ sol : Solution,
      pc.Calculate order =
        { order := order, totalItems := sol.totalItems,
          packs := sol.packsBySize, packSizes := pc.packSizes } ∧
      order ≤ sol.totalItems ∧
      sol.totalItems ≤ order + pc.packSizes.getLast?.getD 0 ∧
      Recorded pc.packSizes sol.totalItems ∧
      (∀ t, order ≤ t → t < sol.totalItems → ¬ Recorded pc.packSizes t) := by
  have hLmem : pc.packSizes.getLast?.getD 0 ∈ pc.packSizes := getLast_getD_mem hne
  set L := pc.packSizes.getLast?.getD 0 with hLdef
  set table := buildUpTo pc.packSizes initialTable (order + L).toNat with htdef
  have hwf : WFtable pc.packSizes table := buildUpTo_wf (WFtable_initial _) _
  obtain ⟨c, hc1, hc2⟩ :=
    exists_multiple_in_window hL order.toNat order (le_refl _) h0
  obtain ⟨t, ht_eq, hc1, hc2⟩ :
      ∃ t, t = L * (c : Int) ∧ order ≤ t ∧ t < order + L := ⟨_, rfl, hc1, hc2⟩
  have hc_pos : c ≠ 0 := by
    intro hc
    subst hc
    simp at ht_eq
    omega
  obtain ⟨solc, hsolc⟩ := dp_records_multiples hL hLmem (c - 1)
  have hsolc' : buildUpTo pc.packSizes initialTable t.toNat t = some solc := by
    have hcast : L * (((c - 1 : Nat) : Int) + 1) = t := by
      rw [ht_eq]
      congr 1
      push_cast [Nat.cast_sub (by omega : 1 ≤ c)]
      ring
    rwa [hcast] at hsolc
  have hentry : table t = some solc := by
    rw [htdef, buildUpTo_stable (m := t.toNat) (by omega) (by omega)]
    exact hsolc'
  rw [calculate_eq_findFrom h0 hne]
  rcases findFrom_cases table order pc.packSizes ((order + L - order + 1).toNat)
      order with ⟨hnone, heq⟩ | ⟨d, sol, hd, hsol, hmin, heq⟩
  · exfalso
    have hd' : (t - order).toNat < (order + L - order + 1).toNat := by omega
    have h := hnone _ hd'
    rw [(by omega : order + (((t - order).toNat : Nat) : Int) = t)] at h
    rw [h] at hentry
    cases hentry
  · have hT := hwf _ _ hsol
    have hTeq : sol.totalItems = order + (d : Int) := hT.1
    refine ⟨sol, heq, by omega, by omega, ?_, ?_⟩
    · refine ⟨sol, ?_⟩
      rw [← buildUpTo_stable (m := sol.totalItems.toNat) (n := (order + L).toNat)
        (by omega) (by omega)]
      rw [← htdef, hTeq]
      exact hsol
    · intro t' hot ht' hrec
      obtain ⟨sol', hsol'⟩ := hrec
      have he : (t' - order).toNat < d := by omega
      have hnone' := hmin _ he
      rw [(by omega : order + (((t' - order).toNat : Nat) : Int) = t')] at hnone'
      have : table t' = some sol' := by
        rw [htdef, buildUpTo_stable (m := t'.toNat) (by omega) (by omega)]
        exact hsol'
      rw [hnone'] at this
      cases this

/-- For a sorted registry whose largest size is non-positive, the scan
never finds an entry and `Calculate` returns the zero result. -/
theorem calculate_nonpos_largest {pc : PackCalculator} {order : Int}
    (h0 : 0 < order) (hne : pc.packSizes ≠ [])
    (hsorted : pc.packSizes.Sorted (fun a b => a ≤ b))
    (hL : pc.packSizes.getLast?.getD 0 ≤ 0) :
    pc.Calculate order = zeroResult pc order := by
  rcases calculate_cases pc order with h | ⟨sol, -, hT, hle, h⟩
  · exact h
  · exfalso
    obtain ⟨hitems, hnodup, hentries, hsum, hcount⟩ := hT
    have hLlast : pc.packSizes.getLast?.getD 0 = pc.packSizes.getLast hne := by
      rw [List.getLast?_eq_getLast _ hne]
      rfl
    have hnonpos : packsItemSum sol.packsBySize ≤ 0 := by
      refine packsItemSum_nonpos fun p hp => ⟨?_, (hentries p hp).2⟩
      have := sorted_le_getLast hne hsorted p.1 (hentries p hp).1
      omega
    omega

/-! ### Claim theorems -/

/-- C1: for every order > 0 and every non-empty ascending list of positive
pack sizes, the `PackResult` returned by `Calculate` has `totalItems` equal
to the smallest integer `t ≥ order` expressible as a non-negative integer
combination of the pack sizes: `totalItems` is such a total, and no
combination produces a total `t` with `order ≤ t < totalItems`. -/
theorem claim_C1_minimal_waste (pc : PackCalculator) (order : Int)
    (h0 : 0 < order) (hne : pc.packSizes ≠ [])
    (hsorted : pc.packSizes.Sorted (fun a b => a ≤ b))
    (hpos : ∀ s ∈ pc.packSizes, 0 < s) :
    order ≤ (pc.Calculate order).totalItems ∧
    Reachable pc.packSizes (pc.Calculate order).totalItems ∧
    ∀ t, order ≤ t → t < (pc.Calculate order).totalItems →
      ¬ Reachable pc.packSizes t := by
  obtain ⟨sol, heq, hwfs, hge, hle, hmin, hopt⟩ := calculate_found h0 hne hpos
  rw [heq]
  obtain ⟨hitems, hnodup, hentries, hsum, hcount⟩ := hwfs
  refine ⟨hge, ⟨sol.totalPackCount, ?_⟩, ?_⟩
  · have h := reachableWith_of_packs hentries
    rwa [hsum, hcount] at h
  · intro t ht hlt hreach
    obtain ⟨m, hm⟩ := hreach
    exact hmin t m ht hlt hm

theorem claim_C1_minimal_waste_witness :
    ((0 : Int) < 5 ∧ (NewPackCalculator [2, 3]).packSizes ≠ [] ∧
      (NewPackCalculator [2, 3]).packSizes.Sorted (fun a b => a ≤ b) ∧
      (∀ s ∈ (NewPackCalculator [2, 3]).packSizes, 0 < s)) ∧
    (5 ≤ ((NewPackCalculator [2, 3]).Calculate 5).totalItems ∧
      Reachable (NewPackCalculator [2, 3]).packSizes
        ((NewPackCalculator [2, 3]).Calculate 5).totalItems ∧
      ∀ t, 5 ≤ t → t < ((NewPackCalculator [2, 3]).Calculate 5).totalItems →
        ¬ Reachable (NewPackCalculator [2, 3]).packSizes t) :=
  ⟨⟨by decide, by decide, by decide, by decide⟩,
    claim_C1_minimal_waste (NewPackCalculator [2, 3]) 5 (by decide) (by decide)
      (by decide) (by decide)⟩

/-- C2: among all non-negative integer combinations of the pack sizes that
sum exactly to the returned `totalItems`, none uses a total package count
strictly smaller than the sum of the counts in the returned `Packs`
mapping. -/
theorem claim_C2_minimal_packs (pc : PackCalculator) (order : Int)
    (h0 : 0 < order) (hne : pc.packSizes ≠ [])
    (hsorted : pc.packSizes.Sorted (fun a b => a ≤ b))
    (hpos : ∀ s ∈ pc.packSizes, 0 < s) :
    ∀ n, ReachableWith pc.packSizes (pc.Calculate order).totalItems n →
      packsCountSum (pc.Calculate order).packs ≤ n := by
  obtain ⟨sol, heq, hwfs, -, -, -, hopt⟩ := calculate_found h0 hne hpos
  rw [heq]
  intro n hn
  have hcount := hwfs.2.2.2.2
  show packsCountSum sol.packsBySize ≤ n
  rw [hcount]
  exact hopt n hn

theorem claim_C2_minimal_packs_witness :
    ((0 : Int) < 7 ∧ (NewPackCalculator [2, 3]).packSizes ≠ [] ∧
      (NewPackCalculator [2, 3]).packSizes.Sorted (fun a b => a ≤ b) ∧
      (∀ s ∈ (NewPackCalculator [2, 3]).packSizes, 0 < s)) ∧
    (∀ n, ReachableWith (NewPackCalculator [2, 3]).packSizes
        ((NewPackCalculator [2, 3]).Calculate 7).totalItems n →
      packsCountSum ((NewPackCalculator [2, 3]).Calculate 7).packs ≤ n) :=
  ⟨⟨by decide, by decide, by decide, by decide⟩,
    claim_C2_minimal_packs (NewPackCalculator [2, 3]) 7 (by decide) (by decide)
      (by decide) (by decide)⟩

/-- C3: for every pack-size list, a non-positive order yields the zero
result `{order, totalItems = 0, packs = {}}`; and for a positive order an
empty pack-size list yields the same zero result rather than failing. -/
theorem claim_C3_zero_policy (pc : PackCalculator) (order : Int) :
    (order ≤ 0 → pc.Calculate order =
      { order := order, totalItems := 0, packs := [],
        packSizes := pc.packSizes }) ∧
    (0 < order → pc.packSizes = [] → pc.Calculate order =
      { order := order, totalItems := 0, packs := [],
        packSizes := pc.packSizes }) :=
  ⟨fun h => calculate_zero_of_nonpos h, fun _ h => calculate_empty h⟩

theorem claim_C3_zero_policy_witness :
    ((NewPackCalculator [3, 7]).Calculate (-2) =
      { order := -2, totalItems := 0, packs := [],
        packSizes := (NewPackCalculator [3, 7]).packSizes }) ∧
    ((NewPackCalculator ([] : List Int)).Calculate 9 =
      { order := 9, totalItems := 0, packs := [],
        packSizes := (NewPackCalculator ([] : List Int)).packSizes }) :=
  ⟨(claim_C3_zero_policy (NewPackCalculator [3, 7]) (-2)).1 (by decide),
    (claim_C3_zero_policy (NewPackCalculator ([] : List Int)) 9).2 (by decide)
      (by decide)⟩

/-- C4, counterexample: the claimed identity
`totalItems = order + Σ size·count` fails already for pack sizes `[2]` and
order `1`, where `totalItems = 2` but `order + Σ = 3`. -/
theorem claim_C4_counterexample :
    ¬ (((NewPackCalculator [2]).Calculate 1).totalItems =
      ((NewPackCalculator [2]).Calculate 1).order +
        packsItemSum (((NewPackCalculator [2]).Calculate 1).packs)) := by
  decide

/-- Helper shared by the reachability and well-formedness claims: the
returned total always equals the item sum of the returned breakdown. -/
theorem calculate_totalItems_eq_packsItemSum (pc : PackCalculator) (order : Int) :
    (pc.Calculate order).totalItems = packsItemSum ((pc.Calculate order).packs) := by
  rcases calculate_cases pc order with h | ⟨sol, -, hT, -, h⟩ <;> rw [h]
  · rfl
  · exact hT.2.2.2.1.symm

/-- C4, amended: for every `PackResult` returned by `Calculate`,
`totalItems` equals the sum over the returned `Packs` mapping of
`size × count` (so the surplus `totalItems − order` equals that sum minus
the order; the claimed `order +` offset does not hold). -/
theorem claim_C4_reachability_amended (pc : PackCalculator) (order : Int) :
    (pc.Calculate order).totalItems = packsItemSum ((pc.Calculate order).packs) :=
  calculate_totalItems_eq_packsItemSum pc order

/-- C5: for every order > 0 and non-empty list of positive pack sizes, a
reachable total exists in the window `[order, order + maxPackSize]`, the
scan finds a recorded table entry at the returned total (so the fallback
zero-result branch at the end of `findBestSolutionForOrder` is not taken),
and the returned `totalItems` is at least `order`. -/
theorem claim_C5_feasibility (pc : PackCalculator) (order : Int)
    (h0 : 0 < order) (hne : pc.packSizes ≠ [])
    (hpos : ∀ s ∈ pc.packSizes, 0 < s) :
    (∃ t, order ≤ t ∧ t ≤ order + pc.packSizes.getLast?.getD 0 ∧
      Reachable pc.packSizes t) ∧
    (∃ sol, buildOptimalSolutions initialTable
        (order + pc.packSizes.getLast?.getD 0) pc.packSizes
        ((pc.Calculate order).totalItems) = some sol) ∧
    pc.Calculate order ≠ zeroResult pc order ∧
    order ≤ (pc.Calculate order).totalItems := by
  obtain ⟨sol, heq, hwfs, hge, hle, hmin, hopt⟩ := calculate_found h0 hne hpos
  obtain ⟨hitems, hnodup, hentries, hsum, hcount⟩ := hwfs
  have hreach : ReachableWith pc.packSizes sol.totalItems sol.totalPackCount := by
    have h := reachableWith_of_packs hentries
    rwa [hsum, hcount] at h
  obtain ⟨sol', hsol', -⟩ := dp_complete_le hpos hreach
    (n := (order + pc.packSizes.getLast?.getD 0).toNat) (by omega)
  refine ⟨⟨sol.totalItems, hge, hle, sol.totalPackCount, hreach⟩, ?_, ?_, ?_⟩
  · refine ⟨sol', ?_⟩
    rw [heq]
    exact hsol'
  · rw [heq]
    intro hcon
    have := congrArg PackResult.totalItems hcon
    simp only [zeroResult] at this
    omega
  · rw [heq]
    exact hge

theorem claim_C5_feasibility_witness :
    ((0 : Int) < 4 ∧ (NewPackCalculator [3]).packSizes ≠ [] ∧
      (∀ s ∈ (NewPackCalculator [3]).packSizes, 0 < s)) ∧
    ((∃ t, 4 ≤ t ∧ t ≤ 4 + (NewPackCalculator [3]).packSizes.getLast?.getD 0 ∧
        Reachable (NewPackCalculator [3]).packSizes t) ∧
      (∃ sol, buildOptimalSolutions initialTable
          (4 + (NewPackCalculator [3]).packSizes.getLast?.getD 0)
          (NewPackCalculator [3]).packSizes
          (((NewPackCalculator [3]).Calculate 4).totalItems) = some sol) ∧
      (NewPackCalculator [3]).Calculate 4 ≠ zeroResult (NewPackCalculator [3]) 4 ∧
      4 ≤ ((NewPackCalculator [3]).Calculate 4).totalItems) :=
  ⟨⟨by decide, by decide, by decide⟩,
    claim_C5_feasibility (NewPackCalculator [3]) 4 (by decide) (by decide)
      (by decide)⟩

/-- C6: for a fixed (sorted, as every registry state is) pack-size list,
increasing the order never decreases the returned `totalItems`. -/
theorem claim_C6_monotone (pc : PackCalculator)
    (hsorted : pc.packSizes.Sorted (fun a b => a ≤ b)) (o1 o2 : Int)
    (h : o1 ≤ o2) :
    (pc.Calculate o1).totalItems ≤ (pc.Calculate o2).totalItems := by
  rcases le_or_lt o2 0 with h2 | h2
  · rw [calculate_zero_of_nonpos (le_trans h h2), calculate_zero_of_nonpos h2]
    exact le_refl 0
  rcases le_or_lt o1 0 with h1 | h1
  · rw [calculate_zero_of_nonpos h1]
    exact calculate_totalItems_nonneg pc o2
  by_cases hne : pc.packSizes = []
  · rw [calculate_empty hne, calculate_empty hne]
    exact le_refl 0
  rcases le_or_lt (pc.packSizes.getLast?.getD 0) 0 with hL | hL
  · rw [calculate_nonpos_largest h1 hne hsorted hL,
      calculate_nonpos_largest h2 hne hsorted hL]
    exact le_refl 0
  · obtain ⟨sol1, heq1, hge1, hle1, hrec1, hmin1⟩ :=
      calculate_found_general h1 hne hL
    obtain ⟨sol2, heq2, hge2, hle2, hrec2, hmin2⟩ :=
      calculate_found_general h2 hne hL
    rw [heq1, heq2]
    show sol1.totalItems ≤ sol2.totalItems
    by_contra hcon
    push_neg at hcon
    exact hmin1 sol2.totalItems (by omega) (by omega) hrec2

theorem claim_C6_monotone_witness :
    ((NewPackCalculator [2, 3]).packSizes.Sorted (fun a b => a ≤ b) ∧
      (2 : Int) ≤ 5) ∧
    ((NewPackCalculator [2, 3]).Calculate 2).totalItems ≤
      ((NewPackCalculator [2, 3]).Calculate 5).totalItems :=
  ⟨⟨by decide, by decide⟩,
    claim_C6_monotone (NewPackCalculator [2, 3]) (by decide) 2 5 (by decide)⟩

/-- C7: after `UpdatePackSizes s` (equivalently, construction via
`NewPackCalculator s`), `GetPackSizes` returns exactly the ascending-sorted
permutation of `s`, independent of the registry's previous contents: the
snapshot is sorted, is a permutation of `s`, coincides with the freshly
constructed registry's snapshot and with any other prior state's
post-update snapshot, and equals any sorted permutation of `s`. -/
theorem claim_C7_registry_replace (pc : PackCalculator) (s : List Int) :
    ((pc.UpdatePackSizes s).GetPackSizes).Sorted (fun a b => a ≤ b) ∧
    ((pc.UpdatePackSizes s).GetPackSizes).Perm s ∧
    (pc.UpdatePackSizes s).GetPackSizes = (NewPackCalculator s).GetPackSizes ∧
    (∀ pc' : PackCalculator,
      (pc'.UpdatePackSizes s).GetPackSizes = (pc.UpdatePackSizes s).GetPackSizes) ∧
    (∀ l : List Int, l.Perm s → l.Sorted (fun a b => a ≤ b) →
      (pc.UpdatePackSizes s).GetPackSizes = l) := by
  have hsorted : (sortInts s).Sorted (fun a b => a ≤ b) :=
    List.sorted_insertionSort _ s
  have hperm : (sortInts s).Perm s := List.perm_insertionSort _ s
  refine ⟨hsorted, hperm, rfl, fun pc' => rfl, fun l hl hlsorted => ?_⟩
  exact List.eq_of_perm_of_sorted (hperm.trans hl.symm) hsorted hlsorted

theorem claim_C7_registry_replace_witness :
    (({ packSizes := [9, 4] } : PackCalculator).UpdatePackSizes
        [3, 1, 2]).GetPackSizes.Sorted (fun a b => a ≤ b) ∧
    (({ packSizes := [9, 4] } : PackCalculator).UpdatePackSizes
        [3, 1, 2]).GetPackSizes.Perm [3, 1, 2] ∧
    (({ packSizes := [9, 4] } : PackCalculator).UpdatePackSizes
        [3, 1, 2]).GetPackSizes = (NewPackCalculator [3, 1, 2]).GetPackSizes ∧
    (∀ pc' : PackCalculator, (pc'.UpdatePackSizes [3, 1, 2]).GetPackSizes =
      (({ packSizes := [9, 4] } : PackCalculator).UpdatePackSizes
        [3, 1, 2]).GetPackSizes) ∧
    (∀ l : List Int, l.Perm [3, 1, 2] → l.Sorted (fun a b => a ≤ b) →
      (({ packSizes := [9, 4] } : PackCalculator).UpdatePackSizes
        [3, 1, 2]).GetPackSizes = l) :=
  claim_C7_registry_replace { packSizes := [9, 4] } [3, 1, 2]

/-- C8: `Calculate` never mutates the registry: in state-passing form the
registry observed through `GetPackSizes` after the call equals the one
before it, and the `PackSizes` field of the returned result equals the
snapshot read at the start of the call. -/
theorem claim_C8_frame (pc : PackCalculator) (order : Int) :
    ((pc.CalculateS order).2).GetPackSizes = pc.GetPackSizes ∧
    ((pc.CalculateS order).1).packSizes = pc.GetPackSizes := by
  refine ⟨rfl, ?_⟩
  rcases calculate_cases pc order with h | ⟨sol, -, -, -, h⟩ <;>
    simp [PackCalculator.CalculateS, h, zeroResult, PackCalculator.GetPackSizes]

/-- C9: a decoded `SetPackSizes` request that is empty or contains a
non-positive element is rejected with the registry left exactly as before;
a non-empty all-positive request succeeds and replaces the registry
content. -/
theorem claim_C9_boundary_validation (pc : PackCalculator) (req : List Int) :
    ((req = [] ∨ ∃ x ∈ req, x ≤ 0) →
      handlePost pc req = (pc, false) ∧
      (handlePost pc req).1.GetPackSizes = pc.GetPackSizes) ∧
    ((req ≠ [] ∧ ∀ x ∈ req, 0 < x) →
      handlePost pc req = (pc.UpdatePackSizes req, true)) := by
  constructor
  · intro hbad
    have hre : handlePost pc req = (pc, false) := by
      unfold handlePost
      rcases hbad with rfl | ⟨x, hx, hx0⟩
      · rfl
      · by_cases hlen : req.length = 0
        · rw [if_pos hlen]
        · rw [if_neg hlen, if_pos]
          simp only [List.any_eq_true, decide_eq_true_eq]
          exact ⟨x, hx, hx0⟩
    exact ⟨hre, by rw [hre]⟩
  · rintro ⟨hne, hpos⟩
    unfold handlePost
    rw [if_neg (by simpa [List.length_eq_zero] using hne), if_neg]
    intro hany
    simp only [List.any_eq_true, decide_eq_true_eq] at hany
    obtain ⟨x, hx, hx0⟩ := hany
    exact absurd (hpos x hx) (by omega)

theorem claim_C9_boundary_validation_witness :
    (handlePost (NewPackCalculator [2]) [3, 0] = (NewPackCalculator [2], false) ∧
      (handlePost (NewPackCalculator [2]) [3, 0]).1.GetPackSizes =
        (NewPackCalculator [2]).GetPackSizes) ∧
    handlePost (NewPackCalculator [2]) [5, 3] =
      ((NewPackCalculator [2]).UpdatePackSizes [5, 3], true) :=
  ⟨(claim_C9_boundary_validation (NewPackCalculator [2]) [3, 0]).1
      (Or.inr ⟨0, by decide, by decide⟩),
    (claim_C9_boundary_validation (NewPackCalculator [2]) [5, 3]).2
      ⟨by decide, by decide⟩⟩

/-- C10: for every order and every list of positive pack sizes, the
returned result's `totalItems` equals the sum of `size × count` over the
`Packs` mapping, every key of the mapping is one of the pack sizes, and
every stored count is strictly positive. -/
theorem claim_C10_result_wellformed (pc : PackCalculator) (order : Int)
    (hpos : ∀ s ∈ pc.packSizes, 0 < s) :
    (pc.Calculate order).totalItems =
      packsItemSum ((pc.Calculate order).packs) ∧
    ∀ p ∈ (pc.Calculate order).packs, p.1 ∈ pc.packSizes ∧ 0 < p.2 := by
  refine ⟨calculate_totalItems_eq_packsItemSum pc order, ?_⟩
  rcases calculate_cases pc order with h | ⟨sol, -, hT, -, h⟩ <;> rw [h]
  · intro p hp
    cases hp
  · exact hT.2.2.1

theorem claim_C10_result_wellformed_witness :
    (∀ s ∈ (NewPackCalculator [2, 3]).packSizes, 0 < s) ∧
    (((NewPackCalculator [2, 3]).Calculate 4).totalItems =
      packsItemSum (((NewPackCalculator [2, 3]).Calculate 4).packs) ∧
    ∀ p ∈ ((NewPackCalculator [2, 3]).Calculate 4).packs,
      p.1 ∈ (NewPackCalculator [2, 3]).packSizes ∧ 0 < p.2) :=
  ⟨by decide,
    claim_C10_result_wellformed (NewPackCalculator [2, 3]) 4 (by decide)⟩

end OrderPacking
